import Mathlib

/-!
Verification of the better-context repository's collection assembly and
streaming answer aggregation, as a shallow embedding in Lean.

The embedding follows the TypeScript sources:
* chunk / stream event model: `apps/chat-web/src/lib/types/index.ts`,
* aggregator `processStreamEvent` and the server-side chunk accumulator:
  `apps/chat-web/src/routes/api/sessions/[sessionId]/chat/+server.ts`,
* client-side delta reducer in `sendMessage`: `apps/chat-web/src/routes/+page.svelte`,
* `getCollectionKey`: `apps/server/src/collections/types.ts`,
* `CollectionsLive.load`: `apps/server/src/collections/index.ts`,
* batch repo sync `cloneOrUpdateAllReposLocally` (ContextService),
* the two-stage cancel gesture (`requestCancel`, `confirmCancel`),
* the JSONC comment/trailing-comma stripper `stripJsonc` (server config loader).

JS strings are modelled as Lean `String` (or `List Char` where the code scans
character by character); `Map`s keyed by strings are modelled as functions
`String → Option α` together with the explicit insertion-order list the code
keeps alongside.
-/

namespace Btca

/-! ### Chunk and event model (apps/chat-web/src/lib/types/index.ts) -/

/-- The three-state tool status of a `ToolChunk` (`'pending' | 'running' | 'completed'`). -/
inductive ToolState
  | pending
  | running
  | completed
  deriving DecidableEq, Repr

/-- `BtcaChunk = TextChunk | ReasoningChunk | ToolChunk | FileChunk`. -/
inductive BtcaChunk
  | text (id : String) (text : String)
  | reasoning (id : String) (text : String)
  | tool (id : String) (toolName : String) (state : ToolState)
  | file (id : String) (filePath : String)
  deriving DecidableEq, Repr

/-- The `id` field every chunk variant carries. -/
def BtcaChunk.id : BtcaChunk → String
  | .text i _ => i
  | .reasoning i _ => i
  | .tool i _ _ => i
  | .file i _ => i

/-- The `type` discriminator string of a chunk (`'text' | 'reasoning' | 'tool' | 'file'`). -/
def BtcaChunk.tag : BtcaChunk → String
  | .text _ _ => "text"
  | .reasoning _ _ => "reasoning"
  | .tool _ _ _ => "tool"
  | .file _ _ => "file"

/-- Collaborator tool status vocabulary, from `BtcaToolStateSchema`:
`z.enum(['pending', 'running', 'completed', 'error'])`. -/
inductive BtcaToolStatus
  | pending
  | running
  | completed
  | error
  deriving DecidableEq, Repr

/-- `BtcaStreamEvent` (discriminated union on `type`).  The payloads of
`meta`, `done` and `error` events are ignored by `processStreamEvent`
(its `default` branch returns `null`), so they are not carried here. -/
inductive BtcaStreamEvent
  | meta
  | textDelta (delta : String)
  | reasoningDelta (delta : String)
  | toolUpdated (callID : String) (tool : String) (status : BtcaToolStatus)
  | done
  | error
  deriving DecidableEq, Repr

/-- A chunk patch as sent in an `update` message: either `{ text }` (text/reasoning
chunks) or `{ state }` (tool chunks).  These are the only partial-chunk payloads
`processStreamEvent` ever produces. -/
inductive ChunkPatch
  | text (text : String)
  | state (state : ToolState)
  deriving DecidableEq, Repr

/-- `ChunkUpdate = { type:'add', chunk } | { type:'update', id, chunk }`. -/
inductive ChunkUpdate
  | add (chunk : BtcaChunk)
  | update (id : String) (patch : ChunkPatch)
  deriving DecidableEq, Repr

/-! ### The aggregator (`processStreamEvent` in chat/+server.ts lines 199-261)

The server keeps `chunksById : Map<string, BtcaChunk>` and `chunkOrder : string[]`.
We model the map as a function `String → Option BtcaChunk` and the order array
as a `List String`. -/

/-- Aggregator state: `chunksById` and `chunkOrder` of the streaming loop. -/
structure AggState where
  chunksById : String → Option BtcaChunk
  chunkOrder : List String

/-- The state before any event is processed: `new Map()`, `[]`. -/
def AggState.empty : AggState := ⟨fun _ => none, []⟩

/-- `chunksById.set(id, c)`. -/
def setChunk (m : String → Option BtcaChunk) (id : String) (c : BtcaChunk) :
    String → Option BtcaChunk :=
  fun k => if k = id then some c else m k

/-- The status mapping in the `tool.updated` branch:
`pending → pending`, `running → running`, anything else → `completed`. -/
def mapToolStatus : BtcaToolStatus → ToolState
  | .pending => .pending
  | .running => .running
  | _ => .completed

/-- The sentinel id of the single text chunk of an answer. -/
def textChunkId : String := "__text__"

/-- The sentinel id of the single reasoning chunk of an answer. -/
def reasoningChunkId : String := "__reasoning__"

/-- `processStreamEvent(event, chunksById, chunkOrder)`: returns the mutated state
together with the emitted `ChunkUpdate | null`. -/
def processStreamEvent (event : BtcaStreamEvent) (s : AggState) :
    AggState × Option ChunkUpdate :=
  match event with
  | .textDelta delta =>
    match s.chunksById textChunkId with
    | some (.text id0 t) =>
      -- `existing && existing.type === 'text'`: append and emit an update
      let t' := t ++ delta
      (⟨setChunk s.chunksById textChunkId (.text id0 t'), s.chunkOrder⟩,
        some (.update textChunkId (.text t')))
    | _ =>
      let c := BtcaChunk.text textChunkId delta
      (⟨setChunk s.chunksById textChunkId c, s.chunkOrder ++ [textChunkId]⟩,
        some (.add c))
  | .reasoningDelta delta =>
    match s.chunksById reasoningChunkId with
    | some (.reasoning id0 t) =>
      let t' := t ++ delta
      (⟨setChunk s.chunksById reasoningChunkId (.reasoning id0 t'), s.chunkOrder⟩,
        some (.update reasoningChunkId (.text t')))
    | _ =>
      let c := BtcaChunk.reasoning reasoningChunkId delta
      (⟨setChunk s.chunksById reasoningChunkId c, s.chunkOrder ++ [reasoningChunkId]⟩,
        some (.add c))
  | .toolUpdated callID tool status =>
    let st := mapToolStatus status
    match s.chunksById callID with
    | some (.tool id0 name0 _) =>
      -- `existing && existing.type === 'tool'`: overwrite only the status
      (⟨setChunk s.chunksById callID (.tool id0 name0 st), s.chunkOrder⟩,
        some (.update callID (.state st)))
    | _ =>
      let c := BtcaChunk.tool callID tool st
      (⟨setChunk s.chunksById callID c, s.chunkOrder ++ [callID]⟩,
        some (.add c))
  | _ => (s, none)

/-- Run the aggregator over a list of events starting from `s`, collecting the
emitted deltas in order. -/
def processEventsFrom (s : AggState) : List BtcaStreamEvent → AggState × List ChunkUpdate
  | [] => (s, [])
  | e :: es =>
    let r := processStreamEvent e s
    let rest := processEventsFrom r.1 es
    (rest.1, r.2.toList ++ rest.2)

/-- Run the aggregator over a list of events from the empty state. -/
def processEvents (events : List BtcaStreamEvent) : AggState × List ChunkUpdate :=
  processEventsFrom AggState.empty events

/-- Does the event carry a tool call id that collides with one of the two
sentinel chunk ids the aggregator reserves for text and reasoning? -/
def BtcaStreamEvent.collidesWithSentinel : BtcaStreamEvent → Bool
  | .toolUpdated cid _ _ => cid == textChunkId || cid == reasoningChunkId
  | _ => false

/-- The final chunk list the server assembles:
`chunkOrder.map((id) => chunksById.get(id)!)`.  (The non-null assertion always
succeeds: an id is pushed onto `chunkOrder` only right after `chunksById.set(id, …)`
and entries are never deleted, so we use `filterMap`, which agrees with `map get!`
whenever every id is present.) -/
def AggState.finalChunks (s : AggState) : List BtcaChunk :=
  s.chunkOrder.filterMap s.chunksById

/-! ### The client-side reducer (`sendMessage` in +page.svelte)

`add` appends the chunk; `update` merges the partial chunk into every chunk
whose id matches: `currentChunks.map(c => c.id !== event.id ? c : {...c, ...event.chunk})`. -/

/-- JS object spread `{...c, ...patch}` restricted to the tagged chunk model:
a `text` patch overwrites the `text` field of a text/reasoning chunk, a `state`
patch overwrites the `state` field of a tool chunk.  Spreading a field the
variant does not carry only adds a property no renderer reads, so the tagged
value is unchanged. -/
def mergePatch (c : BtcaChunk) (p : ChunkPatch) : BtcaChunk :=
  match c, p with
  | .text i _, .text t => .text i t
  | .reasoning i _, .text t => .reasoning i t
  | .tool i n _, .state st => .tool i n st
  | c, _ => c

/-- One step of the client reducer. -/
def applyChunkUpdate (chunks : List BtcaChunk) : ChunkUpdate → List BtcaChunk
  | .add c => chunks ++ [c]
  | .update id p => chunks.map fun c => if c.id = id then mergePatch c p else c

/-- Replay a delta sequence from the empty chunk list (`currentChunks = []`). -/
def replayUpdates (updates : List ChunkUpdate) : List BtcaChunk :=
  updates.foldl applyChunkUpdate []

/-- Concatenation of a list of strings in order. -/
def concatList : List String → String
  | [] => ""
  | s :: ss => s ++ concatList ss

/-- The update sequence a run of `text.delta` events produces once the text
chunk exists with accumulated text `t`: one `update` per delta, carrying the
text accumulated so far. -/
def textUpdates (t : String) : List String → List ChunkUpdate
  | [] => []
  | d :: ds => .update textChunkId (.text (t ++ d)) :: textUpdates (t ++ d) ds

/-- The update sequence a run of `tool.updated` events for one call id produces
once the tool chunk exists: one `update` per event, patching only the mapped
status. -/
def toolUpdates (cid : String) : List (String × BtcaToolStatus) → List ChunkUpdate
  | [] => []
  | (_, st) :: rest => .update cid (.state (mapToolStatus st)) :: toolUpdates cid rest

/-- The tool state after applying a run of `tool.updated` events to a chunk
currently in state `st`: the mapped status of the last event, if any. -/
def lastToolState (st : ToolState) : List (String × BtcaToolStatus) → ToolState
  | [] => st
  | (_, s) :: rest => lastToolState (mapToolStatus s) rest

/-! ### Collection keys (apps/server/src/collections/types.ts)

`getCollectionKey = (resourceNames) => [...resourceNames].sort().join("+")`.
The default JS array sort compares strings by UTF-16 code units; we model it
with insertion sort under Lean's lexicographic order on `String` (identical on
the code points appearing in resource names). -/

/-- Lexicographic comparison of char sequences by code unit, the order the JS
default sort comparator induces on strings (`a` before `b` iff the UTF-16 unit
sequence of `a` compares below that of `b`; code points are used here, which
agrees on the basic multilingual plane). -/
def charListLe : List Char → List Char → Bool
  | [], _ => true
  | _ :: _, [] => false
  | a :: as, b :: bs =>
    if a.toNat < b.toNat then true
    else if b.toNat < a.toNat then false
    else charListLe as bs

/-- `a <= b` under the JS default string comparison. -/
def jsLe (a b : String) : Bool := charListLe a.toList b.toList

/-- `[...resourceNames].sort()`: a stable comparison sort under `jsLe`. -/
def jsSort (l : List String) : List String :=
  l.insertionSort (fun a b => jsLe a b = true)

/-- `getCollectionKey(resourceNames)`. -/
def getCollectionKey (resourceNames : List String) : String :=
  String.intercalate "+" (jsSort resourceNames)

/-! ### The collection loader (`CollectionsLive.load`)

`load` de-duplicates and sorts the requested names, derives the key and the
collection directory path, loads every member resource (which syncs its
checkout), then removes and re-creates one symlink per member and assembles the
agent instructions.  Filesystem reads/writes are recorded as an operation log;
the symlink bookkeeping (`fs.exists` on the link path) and the checkout
directory set are the state the operations depend on. -/

/-- `BtcaFsResource` as far as `CollectionsLive` reads it: the loaded resource's
name, focus subpath, special notes, and the absolute checkout path returned by
`getAbsoluteDirectoryPath`. -/
structure BtcaFsResource where
  name : String
  repoSubPath : String
  specialAgentInstructions : String
  absoluteDirectoryPath : String
  deriving DecidableEq, Repr

/-- `CollectionResult { path, agentInstructions }`. -/
structure CollectionResult where
  path : String
  agentInstructions : String
  deriving DecidableEq, Repr

/-- `CollectionError { message }` (the tagged error of collections/types.ts;
the `cause` payload is not modelled). -/
structure CollectionError where
  message : String
  deriving DecidableEq, Repr

/-- A filesystem / git side effect performed by the loader or the repo sync. -/
inductive FsOp
  | makeDirectory (path : String)
  | gitClone (name : String)
  | gitPull (name : String)
  | removeEntry (key : String) (name : String)
  | symlink (key : String) (name : String)
  deriving DecidableEq, Repr

/-- Mutable on-disk state the loader's branches read: which resource checkouts
exist locally and which entries exist inside collection directories.  (Entries
are tracked as (collection key, member name) pairs, the components of the
`linkPath` handed to `fs.exists`.) -/
structure FsState where
  checkouts : List String
  entries : List (String × String)
  deriving DecidableEq, Repr

/-- The environment `CollectionsLive` runs in: the configured collections
directory, the value of `FS_RESOURCE_SYSTEM_NOTE` (declared in
resources/types.ts, whose body is not among the inspected sources), the
config's resource table (combined with the resource record `loadGitResource`
derives from it), and which resource syncs fail. -/
structure ServerEnv where
  collectionsDirectory : String
  fsResourceSystemNote : String
  resources : String → Option BtcaFsResource
  syncFails : String → Bool

/-- Insert the elements of a list one by one into a JS `Set`, modelled as the
list of its elements in insertion order. -/
def jsSetDedupGo (acc : List String) : List String → List String
  | [] => acc
  | x :: xs => jsSetDedupGo (if x ∈ acc then acc else acc ++ [x]) xs

/-- `Array.from(new Set(resourceNames))`: de-duplicate keeping the first
occurrence of each name, in order. -/
def jsSetDedup (l : List String) : List String :=
  jsSetDedupGo [] l

/-- `resources.load(name)` as `CollectionsLive` consumes it: look the name up in
the config, then sync its checkout.  Modelled from the spec: `loadGitResource`
(resources/impls/git.ts, not among the inspected sources) clones the repository
if no local checkout exists and pulls if one does — the checkout is refreshed on
every reference (§4.1) — and a failed sync is a `ResourceError`, which `load`
wraps as `CollectionError "Failed to load resource <name>"`. -/
def loadResource (env : ServerEnv) (s : FsState) (name : String) :
    Except CollectionError BtcaFsResource × FsState × List FsOp :=
  match env.resources name with
  | none => (.error ⟨"Failed to load resource " ++ name⟩, s, [])
  | some r =>
    let op := if name ∈ s.checkouts then FsOp.gitPull name else FsOp.gitClone name
    if env.syncFails name then
      (.error ⟨"Failed to load resource " ++ name⟩, s, [op])
    else
      (.ok r,
        { s with checkouts := if name ∈ s.checkouts then s.checkouts else s.checkouts ++ [name] },
        [op])

/-- The `for (const name of sortedNames)` resource-loading loop: sequential, and
a failed member load fails the whole build. -/
def loadResourcesLoop (env : ServerEnv) (s : FsState) :
    List String → Except CollectionError (List BtcaFsResource) × FsState × List FsOp
  | [] => (.ok [], s, [])
  | n :: rest =>
    match loadResource env s n with
    | (.error e, s1, ops) => (.error e, s1, ops)
    | (.ok r, s1, ops) =>
      match loadResourcesLoop env s1 rest with
      | (.error e, s2, ops2) => (.error e, s2, ops ++ ops2)
      | (.ok rs, s2, ops2) => (.ok (r :: rs), s2, ops ++ ops2)

/-- The `for (const resource of loadedResources)` symlink loop: if an entry
already exists at the link path it is removed (recursively, forced) first, then
the symlink to the checkout is created. -/
def linkResourcesLoop (key : String) (s : FsState) :
    List BtcaFsResource → FsState × List FsOp
  | [] => (s, [])
  | r :: rest =>
    let hasEntry := (key, r.name) ∈ s.entries
    let ops := if hasEntry
      then [FsOp.removeEntry key r.name, FsOp.symlink key r.name]
      else [FsOp.symlink key r.name]
    let s1 : FsState :=
      { s with entries := if hasEntry then s.entries else s.entries ++ [(key, r.name)] }
    let rec2 := linkResourcesLoop key s1 rest
    (rec2.1, ops ++ rec2.2)

/-- `createCollectionInstructionBlock(resource)`: header, system note, path,
optional focus line, optional notes line; empty lines are filtered out
(`.filter(Boolean)`). -/
def createCollectionInstructionBlock (note : String) (r : BtcaFsResource) : String :=
  String.intercalate "\n" (List.filter (fun l => l ≠ "")
    ["## Resource: " ++ r.name,
      note,
      "Path: ./" ++ r.name,
      if r.repoSubPath ≠ "" then "Focus: ./" ++ r.name ++ "/" ++ r.repoSubPath else "",
      if r.specialAgentInstructions ≠ "" then "Notes: " ++ r.specialAgentInstructions else ""])

/-- The fixed header block of the generated agent instructions. -/
def collectionHeaderBlock : String :=
  String.intercalate "\n"
    ["## Collection",
      "You are running inside the collection directory.",
      "Only use relative paths within '.' and never use '..' or absolute paths.",
      "Do not leave the collection directory."]

/-- The generated `agentInstructions`: the fixed header followed by one block
per member resource, joined by blank lines. -/
def buildAgentInstructions (note : String) (rs : List BtcaFsResource) : String :=
  String.intercalate "\n\n"
    (collectionHeaderBlock :: rs.map (createCollectionInstructionBlock note))

/-- `Collections.load({ resourceNames })`.  `sortedNames` is
`[...uniqueNames].sort((a, b) => a.localeCompare(b))` — locale collation is
modelled by the same code-unit order as the default comparator — and `key` /
`collectionPath` are written out as `getCollectionKey sortedNames` and
`collectionsDirectory/key`. -/
def collectionsLoad (env : ServerEnv) (s : FsState) (resourceNames : List String) :
    Except CollectionError CollectionResult × FsState × List FsOp :=
  if jsSetDedup resourceNames = [] then
    (.error ⟨"Cannot create collection with no resources"⟩, s, [])
  else
    match loadResourcesLoop env s (jsSort (jsSetDedup resourceNames)) with
    | (.error e, s1, ops) =>
      (.error e, s1,
        FsOp.makeDirectory (env.collectionsDirectory ++ "/" ++
          getCollectionKey (jsSort (jsSetDedup resourceNames))) :: ops)
    | (.ok rs, s1, ops) =>
      (.ok ⟨env.collectionsDirectory ++ "/" ++
            getCollectionKey (jsSort (jsSetDedup resourceNames)),
          buildAgentInstructions env.fsResourceSystemNote rs⟩,
        (linkResourcesLoop (getCollectionKey (jsSort (jsSetDedup resourceNames))) s1 rs).1,
        FsOp.makeDirectory (env.collectionsDirectory ++ "/" ++
            getCollectionKey (jsSort (jsSetDedup resourceNames))) ::
          (ops ++ (linkResourcesLoop (getCollectionKey (jsSort (jsSetDedup resourceNames))) s1 rs).2))

/-! ### Batch repo sync (`ContextService.cloneOrUpdateAllReposLocally`) -/

/-- A repo from the CLI config (`Repo`): name, url, optional branch. -/
structure Repo where
  name : String
  url : String
  branch : Option String
  deriving DecidableEq, Repr

/-- `ContextError { message }`. -/
structure ContextError where
  message : String
  deriving DecidableEq, Repr

/-- Which repo syncs (git clone / git pull subprocesses) exit non-zero. -/
structure RepoSyncEnv where
  syncFails : String → Bool

/-- `cloneOrUpdate({ repo, reposDirectory })`: pull if the repo directory
exists, clone otherwise; a non-zero git exit code becomes a `ContextError`.
The state is the set of repo names whose directory exists. -/
def cloneOrUpdate (env : RepoSyncEnv) (st : List String) (repo : Repo) :
    Except ContextError Unit × List String × List FsOp :=
  let existing := repo.name ∈ st
  let op := if existing then FsOp.gitPull repo.name else FsOp.gitClone repo.name
  if env.syncFails repo.name then
    (.error ⟨if existing then "Failed to pull repo" else "Failed to clone repo"⟩, st, [op])
  else
    (.ok (), if existing then st else st ++ [repo.name], [op])

/-- `cloneOrUpdateAllReposLocally()`: the member operations are combined with
`Effect.all(operations, { concurrency: "unbounded" })`, a single effect that
fails as a whole as soon as any member fails and collects no per-repo outcomes;
members that have not completed by then are interrupted.  Modelled with the
deterministic sequential reading: process the list in order and stop at the
first failure.  The returned op list records the syncs that were performed. -/
def cloneOrUpdateAllReposLocally (env : RepoSyncEnv) (st : List String) :
    List Repo → Except ContextError Unit × List String × List FsOp
  | [] => (.ok (), st, [])
  | r :: rest =>
    match cloneOrUpdate env st r with
    | (.error e, st1, ops) => (.error e, st1, ops)
    | (.ok _, st1, ops) =>
      match cloneOrUpdateAllReposLocally env st1 rest with
      | (res, st2, ops2) => (res, st2, ops ++ ops2)

/-! ### Two-stage cancellation

Web client (+page.svelte): `requestCancel` arms on the first trigger
(`cancelState: 'none' → 'pending'`) and calls `abortController.abort()` on the
second; aborting rejects the in-flight fetch read with an `AbortError`, whose
handler appends the "Request canceled." marker and leaves `currentChunks` alone.

CLI TUI (messages-context.tsx): `requestCancel` only arms; `confirmCancel`
cancels the transport request (`services.cancelCurrentRequest()`), marks the
last assistant message canceled, ends streaming and resets the cancel state. -/

/-- `CancelState = 'none' | 'pending'`. -/
inductive CancelState
  | none
  | pending
  deriving DecidableEq, Repr

/-- The web chat page's streaming-related state. -/
structure WebChatState where
  cancelState : CancelState
  aborted : Bool
  canceled : Bool
  currentChunks : List BtcaChunk
  deriving DecidableEq, Repr

/-- `requestCancel()` of +page.svelte: arm on the first trigger, abort on the
second.  The synchronous effect of `abortController.abort()` is that the pending
read rejects with `AbortError` and the catch branch records the cancellation. -/
def webRequestCancel (s : WebChatState) : WebChatState :=
  match s.cancelState with
  | .none => { s with cancelState := CancelState.pending }
  | .pending => { s with aborted := true, canceled := true }

/-- One delta arriving in the `sendMessage` read loop: applied to
`currentChunks` unless the request was aborted (an aborted reader delivers no
further events, so no further delta is applied). -/
def webApplyDelta (s : WebChatState) (u : ChunkUpdate) : WebChatState :=
  if s.aborted then s
  else { s with currentChunks := applyChunkUpdate s.currentChunks u }

/-- The CLI TUI's streaming-related state. -/
structure CliChatState where
  cancelState : CancelState
  isStreaming : Bool
  transportCancelRequested : Bool
  lastAssistantCanceled : Bool
  deriving DecidableEq, Repr

/-- `requestCancel()` of messages-context.tsx: arms only. -/
def cliRequestCancel (s : CliChatState) : CliChatState :=
  if s.cancelState = CancelState.none then { s with cancelState := CancelState.pending } else s

/-- `confirmCancel()` of messages-context.tsx: cancel the transport request,
mark the last assistant message canceled, stop streaming, reset the gesture. -/
def confirmCancel (s : CliChatState) : CliChatState :=
  { s with transportCancelRequested := true,
           lastAssistantCanceled := true,
           isStreaming := false,
           cancelState := CancelState.none }

/-! ### JSONC stripping (`stripJsonc` in the server config loader)

`stripJsonc` makes two character scans over the input — the first removes
`//` and `/* */` comments outside string literals, the second removes trailing
commas outside string literals — and finally trims the result.  Both scans
track the string state with `inString`/`stringQuote`/`escaped`; we carry the
quote as `Option Char` (`some q` iff `inString` with `stringQuote === q`) and
the escape flag, and work over `List Char`. -/

/-- The single-quote character (`'`), one of the two quote characters the
scanner recognises. -/
def singleQuoteChar : Char := Char.ofNat 39

/-- JS `\s` (also the character class `String.prototype.trim` removes):
WhiteSpace and LineTerminator code points. -/
def jsWhitespace (c : Char) : Bool :=
  c = ' ' || c = '\t' || c = '\n' || c = '\r' ||
  c = Char.ofNat 11 || c = Char.ofNat 12 ||
  c = Char.ofNat 160 || c = Char.ofNat 5760 ||
  (8192 ≤ c.toNat && c.toNat ≤ 8202) ||
  c = Char.ofNat 8232 || c = Char.ofNat 8233 ||
  c = Char.ofNat 8239 || c = Char.ofNat 8287 ||
  c = Char.ofNat 12288 || c = Char.ofNat 65279

/-- The line-comment skip: `while (i < length && content[i] !== '\n') i += 1`
(the newline itself is left in place). -/
def skipLineComment : List Char → List Char
  | [] => []
  | c :: cs => if c = '\n' then c :: cs else skipLineComment cs

/-- The block-comment skip: advance until `*/` (consumed) or the end of input.
At the last character, `content[i + 1]` is `undefined` and never equals `/`. -/
def skipBlockComment : List Char → List Char
  | [] => []
  | [_] => []
  | c :: c2 :: cs =>
    if c = '*' && c2 = '/' then cs else skipBlockComment (c2 :: cs)

theorem skipLineComment_length_le (l : List Char) :
    (skipLineComment l).length ≤ l.length := by
  induction l with
  | nil => simp [skipLineComment]
  | cons c cs ih =>
    simp only [skipLineComment]
    split
    · simp
    · exact Nat.le_succ_of_le ih

theorem skipBlockComment_length_le (l : List Char) :
    (skipBlockComment l).length ≤ l.length := by
  induction l with
  | nil => simp [skipBlockComment]
  | cons c cs ih =>
    cases cs with
    | nil => simp [skipBlockComment]
    | cons c2 cs2 =>
      simp only [skipBlockComment]
      split
      · simp only [List.length_cons]; omega
      · calc (skipBlockComment (c2 :: cs2)).length ≤ (c2 :: cs2).length := ih
          _ ≤ (c :: c2 :: cs2).length := by simp

/-- The first scan of `stripJsonc`: remove `//` and `/* */` comments outside
string literals.  State: `some q` while inside a string opened with quote `q`
(both `"` and `'` open strings), plus the `escaped` flag. -/
def stripCommentsAux : List Char → Option Char → Bool → List Char
  | [], _, _ => []
  | c :: cs, some q, esc =>
    c :: (if esc then stripCommentsAux cs (some q) false
      else if c = '\\' then stripCommentsAux cs (some q) true
      else if c = q then stripCommentsAux cs Option.none false
      else stripCommentsAux cs (some q) false)
  | c :: cs, Option.none, _ =>
    if c = '/' && cs.head? = some '/' then
      stripCommentsAux (skipLineComment cs.tail) Option.none false
    else if c = '/' && cs.head? = some '*' then
      stripCommentsAux (skipBlockComment cs.tail) Option.none false
    else if c = '"' || c = singleQuoteChar then
      c :: stripCommentsAux cs (some c) false
    else
      c :: stripCommentsAux cs Option.none false
termination_by l _ _ => l.length
decreasing_by
  all_goals simp only [List.length_cons]
  all_goals first
    | omega
    | (have h1 := skipLineComment_length_le cs.tail
       have h2 : cs.tail.length ≤ cs.length := by cases cs <;> simp
       omega)
    | (have h1 := skipBlockComment_length_le cs.tail
       have h2 : cs.tail.length ≤ cs.length := by cases cs <;> simp
       omega)

/-- The second scan of `stripJsonc`: remove a comma whose next non-whitespace
character is `]` or `}` (the whitespace between them is kept), outside string
literals. -/
def stripTrailingCommasAux : List Char → Option Char → Bool → List Char
  | [], _, _ => []
  | c :: cs, some q, esc =>
    c :: (if esc then stripTrailingCommasAux cs (some q) false
      else if c = '\\' then stripTrailingCommasAux cs (some q) true
      else if c = q then stripTrailingCommasAux cs Option.none false
      else stripTrailingCommasAux cs (some q) false)
  | c :: cs, Option.none, _ =>
    if c = '"' || c = singleQuoteChar then
      c :: stripTrailingCommasAux cs (some c) false
    else if c = ',' then
      -- `let j = i + 1; while (whitespace) j += 1; const nextNonWs = out[j] ?? ""`
      if (cs.dropWhile jsWhitespace).head? = some ']' ||
          (cs.dropWhile jsWhitespace).head? = some '}' then
        stripTrailingCommasAux cs Option.none false
      else
        c :: stripTrailingCommasAux cs Option.none false
    else
      c :: stripTrailingCommasAux cs Option.none false

/-- JS `String.prototype.trim`: drop leading and trailing whitespace. -/
def jsTrim (l : List Char) : List Char :=
  ((l.dropWhile jsWhitespace).reverse.dropWhile jsWhitespace).reverse

/-- `stripJsonc(content)`. -/
def stripJsonc (content : List Char) : List Char :=
  jsTrim (stripTrailingCommasAux (stripCommentsAux content Option.none false) Option.none false)

/-- Does the comment-removal scan reach a `//` or `/*` opener outside a string
literal?  Mirrors the state machine of `stripCommentsAux`; `false` exactly when
a removal would be triggered. -/
def noCommentOpeners : List Char → Option Char → Bool → Bool
  | [], _, _ => true
  | c :: cs, some q, esc =>
    if esc then noCommentOpeners cs (some q) false
    else if c = '\\' then noCommentOpeners cs (some q) true
    else if c = q then noCommentOpeners cs Option.none false
    else noCommentOpeners cs (some q) false
  | c :: cs, Option.none, _ =>
    if c = '/' && cs.head? = some '/' then false
    else if c = '/' && cs.head? = some '*' then false
    else if c = '"' || c = singleQuoteChar then noCommentOpeners cs (some c) false
    else noCommentOpeners cs Option.none false

/-- Does the trailing-comma scan reach, outside a string literal, a comma whose
next non-whitespace character is `]` or `}`? -/
def noTrailingCommas : List Char → Option Char → Bool → Bool
  | [], _, _ => true
  | c :: cs, some q, esc =>
    if esc then noTrailingCommas cs (some q) false
    else if c = '\\' then noTrailingCommas cs (some q) true
    else if c = q then noTrailingCommas cs Option.none false
    else noTrailingCommas cs (some q) false
  | c :: cs, Option.none, _ =>
    if c = '"' || c = singleQuoteChar then noTrailingCommas cs (some c) false
    else if c = ',' then
      if (cs.dropWhile jsWhitespace).head? = some ']' ||
          (cs.dropWhile jsWhitespace).head? = some '}' then false
      else noTrailingCommas cs Option.none false
    else noTrailingCommas cs Option.none false

/-- Scan a candidate string-literal body under quote `q`: `some e` means the
scanner is still inside the string afterwards with escape flag `e`; `none`
means an unescaped closing quote occurred within the body. -/
def stringScan (q : Char) : List Char → Bool → Option Bool
  | [], e => some e
  | _ :: cs, true => stringScan q cs false
  | c :: cs, false =>
    if c = '\\' then stringScan q cs true
    else if c = q then Option.none
    else stringScan q cs false

/-! ## Properties of the JS string order and of `getCollectionKey` -/

theorem charListLe_total : ∀ as bs : List Char,
    charListLe as bs = true ∨ charListLe bs as = true
  | [], _ => Or.inl rfl
  | _ :: _, [] => Or.inr rfl
  | a :: as, b :: bs => by
    simp only [charListLe]
    rcases Nat.lt_trichotomy a.toNat b.toNat with h | h | h
    · left; simp [h]
    · have h1 : ¬ a.toNat < b.toNat := by omega
      have h2 : ¬ b.toNat < a.toNat := by omega
      simpa [h1, h2] using charListLe_total as bs
    · right; simp [h]

theorem charListLe_trans : ∀ as bs cs : List Char,
    charListLe as bs = true → charListLe bs cs = true → charListLe as cs = true
  | [], _, _ => fun _ _ => rfl
  | _ :: _, [], _ => fun h _ => by simp [charListLe] at h
  | _ :: _, _ :: _, [] => fun _ h => by simp [charListLe] at h
  | a :: as, b :: bs, c :: cs => fun h1 h2 => by
    simp only [charListLe] at h1 h2 ⊢
    rcases Nat.lt_trichotomy a.toNat b.toNat with hab | hab | hab
    · rcases Nat.lt_trichotomy b.toNat c.toNat with hbc | hbc | hbc
      · simp [show a.toNat < c.toNat by omega]
      · simp [show a.toNat < c.toNat by omega]
      · simp [show ¬ b.toNat < c.toNat by omega, show c.toNat < b.toNat from hbc] at h2
    · rcases Nat.lt_trichotomy b.toNat c.toNat with hbc | hbc | hbc
      · simp [show a.toNat < c.toNat by omega]
      · have hac : ¬ a.toNat < c.toNat := by omega
        have hca : ¬ c.toNat < a.toNat := by omega
        simp only [show ¬ a.toNat < b.toNat by omega, show ¬ b.toNat < a.toNat by omega,
          if_false, ite_false, if_neg] at h1
        simp only [show ¬ b.toNat < c.toNat by omega, show ¬ c.toNat < b.toNat by omega,
          if_false, ite_false, if_neg] at h2
        simpa [hac, hca] using charListLe_trans as bs cs h1 h2
      · simp [show ¬ b.toNat < c.toNat by omega, show c.toNat < b.toNat from hbc] at h2
    · simp [show ¬ a.toNat < b.toNat by omega, show b.toNat < a.toNat from hab] at h1

theorem char_eq_of_toNat_eq {a b : Char} (h : a.toNat = b.toNat) : a = b := by
  unfold Char.toNat at h
  exact Char.eq_of_val_eq (UInt32.toNat.inj h)

theorem charListLe_antisymm : ∀ as bs : List Char,
    charListLe as bs = true → charListLe bs as = true → as = bs
  | [], [] => fun _ _ => rfl
  | [], _ :: _ => fun _ h => by simp [charListLe] at h
  | _ :: _, [] => fun h _ => by simp [charListLe] at h
  | a :: as, b :: bs => fun h1 h2 => by
    simp only [charListLe] at h1 h2
    rcases Nat.lt_trichotomy a.toNat b.toNat with hab | hab | hab
    · simp [show ¬ b.toNat < a.toNat by omega, show a.toNat < b.toNat from hab] at h2
    · have hne1 : ¬ a.toNat < b.toNat := by omega
      have hne2 : ¬ b.toNat < a.toNat := by omega
      simp only [hne1, hne2, if_false, ite_false, if_neg] at h1 h2
      rw [char_eq_of_toNat_eq hab, charListLe_antisymm as bs h1 h2]
    · simp [show ¬ a.toNat < b.toNat by omega, show b.toNat < a.toNat from hab] at h1

theorem jsLe_total (a b : String) : jsLe a b = true ∨ jsLe b a = true :=
  charListLe_total a.toList b.toList

theorem jsLe_trans {a b c : String} (h1 : jsLe a b = true) (h2 : jsLe b c = true) :
    jsLe a c = true :=
  charListLe_trans a.toList b.toList c.toList h1 h2

theorem jsLe_antisymm {a b : String} (h1 : jsLe a b = true) (h2 : jsLe b a = true) :
    a = b :=
  String.ext (charListLe_antisymm a.toList b.toList h1 h2)

/-- `jsSort` is determined by the multiset of its input: permuted inputs sort
to the same list. -/
theorem jsSort_eq_of_perm {xs ys : List String} (h : xs.Perm ys) :
    jsSort xs = jsSort ys := by
  haveI : IsTotal String (fun a b => jsLe a b = true) := ⟨jsLe_total⟩
  haveI : IsTrans String (fun a b => jsLe a b = true) := ⟨fun _ _ _ => jsLe_trans⟩
  haveI : IsAntisymm String (fun a b => jsLe a b = true) := ⟨fun _ _ => jsLe_antisymm⟩
  exact List.eq_of_perm_of_sorted
    (((List.perm_insertionSort _ xs).trans h).trans (List.perm_insertionSort _ ys).symm)
    (List.sorted_insertionSort _ xs) (List.sorted_insertionSort _ ys)

theorem mem_jsSetDedupGo (a : String) :
    ∀ (l acc : List String), a ∈ jsSetDedupGo acc l ↔ a ∈ acc ∨ a ∈ l := by
  intro l
  induction l with
  | nil => intro acc; simp [jsSetDedupGo]
  | cons x xs ih =>
    intro acc
    simp only [jsSetDedupGo]
    by_cases hx : x ∈ acc
    · rw [if_pos hx, ih]
      constructor
      · rintro (h | h)
        · exact Or.inl h
        · exact Or.inr (List.mem_cons_of_mem _ h)
      · rintro (h | h)
        · exact Or.inl h
        · rcases List.mem_cons.mp h with rfl | h
          · exact Or.inl hx
          · exact Or.inr h
    · rw [if_neg hx, ih]
      simp only [List.mem_append, List.mem_singleton, List.mem_cons]
      tauto

theorem nodup_jsSetDedupGo :
    ∀ (l acc : List String), acc.Nodup → (jsSetDedupGo acc l).Nodup := by
  intro l
  induction l with
  | nil => intro acc h; simpa [jsSetDedupGo] using h
  | cons x xs ih =>
    intro acc h
    simp only [jsSetDedupGo]
    by_cases hx : x ∈ acc
    · rw [if_pos hx]; exact ih acc h
    · rw [if_neg hx]
      exact ih _ (by simp [List.nodup_append, h, hx])

theorem mem_jsSetDedup (a : String) (l : List String) : a ∈ jsSetDedup l ↔ a ∈ l := by
  simp [jsSetDedup, mem_jsSetDedupGo]

theorem nodup_jsSetDedup (l : List String) : (jsSetDedup l).Nodup :=
  nodup_jsSetDedupGo l [] List.nodup_nil

/-- C2, counterexample: `getCollectionKey` is not invariant under duplicate
entries — `["a", "a"]` and `["a"]` carry the same set of names but map to the
distinct keys `"a+a"` and `"a"` (the code sorts and joins without
de-duplicating). -/
theorem getCollectionKey_not_duplicate_invariant :
    getCollectionKey ["a", "a"] ≠ getCollectionKey ["a"] := by decide

/-- C2, amended claim: the collection key is invariant under permutation of the
resource names; invariance under duplicate entries fails for `getCollectionKey`
itself and holds only after de-duplication, which `CollectionsLive.load`
performs (`Array.from(new Set(resourceNames))`) before computing the key: keys
of de-duplicated inputs agree whenever the inputs carry the same set of names. -/
theorem getCollectionKey_perm_and_dedup_invariant :
    (∀ xs ys : List String, xs.Perm ys → getCollectionKey xs = getCollectionKey ys) ∧
    (∀ xs ys : List String, (∀ a, a ∈ xs ↔ a ∈ ys) →
      getCollectionKey (jsSetDedup xs) = getCollectionKey (jsSetDedup ys)) := by
  constructor
  · intro xs ys h
    unfold getCollectionKey
    rw [jsSort_eq_of_perm h]
  · intro xs ys h
    unfold getCollectionKey
    rw [jsSort_eq_of_perm
      ((List.perm_ext_iff_of_nodup (nodup_jsSetDedup xs) (nodup_jsSetDedup ys)).mpr
        (by intro a; rw [mem_jsSetDedup, mem_jsSetDedup]; exact h a))]

/-- Witness for the amended C2 theorem at concrete inputs. -/
theorem getCollectionKey_perm_and_dedup_invariant_witness :
    (["alpha", "beta"] : List String).Perm ["beta", "alpha"] ∧
    getCollectionKey ["alpha", "beta"] = getCollectionKey ["beta", "alpha"] ∧
    (∀ a, a ∈ (["a", "b", "a"] : List String) ↔ a ∈ (["b", "a"] : List String)) ∧
    getCollectionKey (jsSetDedup ["a", "b", "a"]) = getCollectionKey (jsSetDedup ["b", "a"]) :=
  ⟨by decide,
    getCollectionKey_perm_and_dedup_invariant.1 _ _ (by decide),
    by intro a; simp only [List.mem_cons, List.not_mem_nil, or_false]; tauto,
    getCollectionKey_perm_and_dedup_invariant.2 _ _
      (by intro a; simp only [List.mem_cons, List.not_mem_nil, or_false]; tauto)⟩

/-! ## The empty-request guard of `Collections.load` (C9) -/

/-- C9: a request whose resource names de-duplicate to the empty set fails with
`CollectionError "Cannot create collection with no resources"`, leaves the
filesystem state untouched, and performs no directory, symlink or sync
operation. -/
theorem collectionsLoad_rejects_empty (env : ServerEnv) (s : FsState)
    (names : List String) (h : jsSetDedup names = []) :
    collectionsLoad env s names =
      (.error ⟨"Cannot create collection with no resources"⟩, s, []) := by
  simp [collectionsLoad, h]

/-- Witness for C9 at the concrete empty request. -/
theorem collectionsLoad_rejects_empty_witness :
    jsSetDedup [] = [] ∧
    collectionsLoad ⟨"/data/collections", "NOTE", fun _ => Option.none, fun _ => false⟩
        ⟨[], []⟩ [] =
      (.error ⟨"Cannot create collection with no resources"⟩, ⟨[], []⟩, []) :=
  ⟨rfl, collectionsLoad_rejects_empty _ _ _ rfl⟩

/-! ## All-or-nothing batch sync (C7) -/

/-- C7: the inspected batch sync is all-or-nothing.  In a batch of two repos
where the first repo's sync fails and the second's would succeed, the whole
batch fails with the first `ContextError`, the succeeding repo's sync is never
performed (no clone or pull op for it appears), and no per-repo outcome is
collected. -/
theorem cloneOrUpdateAllRepos_aborts_batch_on_failure :
    cloneOrUpdateAllReposLocally ⟨fun n => n == "bad"⟩ []
        [⟨"bad", "https://example.com/bad.git", Option.none⟩,
          ⟨"good", "https://example.com/good.git", Option.none⟩] =
      (.error ⟨"Failed to clone repo"⟩, [], [.gitClone "bad"]) ∧
    FsOp.gitClone "good" ∉
      (cloneOrUpdateAllReposLocally ⟨fun n => n == "bad"⟩ []
        [⟨"bad", "https://example.com/bad.git", Option.none⟩,
          ⟨"good", "https://example.com/good.git", Option.none⟩]).2.2 ∧
    FsOp.gitPull "good" ∉
      (cloneOrUpdateAllReposLocally ⟨fun n => n == "bad"⟩ []
        [⟨"bad", "https://example.com/bad.git", Option.none⟩,
          ⟨"good", "https://example.com/good.git", Option.none⟩]).2.2 := by
  refine ⟨rfl, ?_, ?_⟩ <;> decide

/-! ## Two-stage cancellation (C8) -/

/-- C8: the cancel gesture is a two-stage machine.  A first cancellation
request on a session with cancel state `none` only moves the state to
`pending` — nothing is aborted and the accumulated chunk list is untouched; a
second request while `pending` aborts the transport request and marks the
exchange canceled without touching the chunk list, and no further delta is
applied after the abort.  On the CLI, `requestCancel` likewise only arms, and
the explicit `confirmCancel` cancels the transport request, marks the last
assistant message canceled and ends streaming. -/
theorem cancellation_two_stage (s : WebChatState) (u : ChunkUpdate) (t : CliChatState) :
    (s.cancelState = CancelState.none →
      webRequestCancel s = { s with cancelState := CancelState.pending }) ∧
    (s.cancelState = CancelState.pending →
      (webRequestCancel s).aborted = true ∧
      (webRequestCancel s).canceled = true ∧
      (webRequestCancel s).currentChunks = s.currentChunks ∧
      webApplyDelta (webRequestCancel s) u = webRequestCancel s) ∧
    (t.cancelState = CancelState.none →
      cliRequestCancel t = { t with cancelState := CancelState.pending }) ∧
    ((confirmCancel t).transportCancelRequested = true ∧
      (confirmCancel t).lastAssistantCanceled = true ∧
      (confirmCancel t).isStreaming = false) := by
  refine ⟨fun h => ?_, fun h => ?_, fun h => ?_, rfl, rfl, rfl⟩
  · simp [webRequestCancel, h]
  · simp [webRequestCancel, webApplyDelta, h]
  · simp [cliRequestCancel, h]

/-- Witness for C8 at concrete session states. -/
theorem cancellation_two_stage_witness :
    ((⟨CancelState.none, false, false, [BtcaChunk.text "__text__" "hi"]⟩ :
        WebChatState).cancelState = CancelState.none ∧
      webRequestCancel ⟨CancelState.none, false, false, [BtcaChunk.text "__text__" "hi"]⟩ =
        ⟨CancelState.pending, false, false, [BtcaChunk.text "__text__" "hi"]⟩) ∧
    ((⟨CancelState.pending, false, false, [BtcaChunk.text "__text__" "hi"]⟩ :
        WebChatState).cancelState = CancelState.pending ∧
      (webRequestCancel ⟨CancelState.pending, false, false,
          [BtcaChunk.text "__text__" "hi"]⟩).aborted = true) ∧
    (confirmCancel ⟨CancelState.pending, true, false, false⟩).lastAssistantCanceled = true :=
  ⟨⟨rfl, (cancellation_two_stage _ (ChunkUpdate.add (BtcaChunk.text "__text__" "x")) ⟨CancelState.none, true, false, false⟩).1 rfl⟩,
    ⟨rfl, ((cancellation_two_stage _ (ChunkUpdate.add (BtcaChunk.text "__text__" "x")) ⟨CancelState.none, true, false, false⟩).2.1 rfl).1⟩,
    ((cancellation_two_stage ⟨CancelState.none, false, false, []⟩ (ChunkUpdate.add (BtcaChunk.text "__text__" "x")) ⟨CancelState.pending, true, false, false⟩).2.2.2).2.1⟩

/-! ## Runs of `text.delta` and `tool.updated` events (C4, C5) -/

theorem setChunk_same (m : String → Option BtcaChunk) (id : String) (c : BtcaChunk) :
    setChunk m id c id = some c := by
  simp [setChunk]

theorem setChunk_setChunk (m : String → Option BtcaChunk) (id : String) (c c' : BtcaChunk) :
    setChunk (setChunk m id c) id c' = setChunk m id c' := by
  funext k
  unfold setChunk
  split <;> rfl

theorem processEventsFrom_textRun :
    ∀ (ds : List String) (m : String → Option BtcaChunk) (ord : List String) (id0 t : String),
      m textChunkId = some (.text id0 t) →
      processEventsFrom ⟨m, ord⟩ (ds.map .textDelta) =
        (⟨setChunk m textChunkId (.text id0 (t ++ concatList ds)), ord⟩, textUpdates t ds) := by
  intro ds
  induction ds with
  | nil =>
    intro m ord id0 t hm
    have hset : setChunk m textChunkId (.text id0 (t ++ concatList [])) = m := by
      funext k
      unfold setChunk
      split
      · next hk => subst hk; rw [hm]; simp [concatList]
      · rfl
    simp [processEventsFrom, textUpdates, hset]
  | cons d ds ih =>
    intro m ord id0 t hm
    simp only [List.map_cons, processEventsFrom, processStreamEvent, hm]
    rw [ih _ ord id0 (t ++ d) (setChunk_same ..), setChunk_setChunk]
    simp [textUpdates, concatList, String.append_assoc]

theorem textUpdates_shape :
    ∀ (ds : List String) (t : String), ∀ u ∈ textUpdates t ds,
      ∃ t', u = .update textChunkId (.text t') := by
  intro ds
  induction ds with
  | nil => intro t u hu; simp [textUpdates] at hu
  | cons d ds ih =>
    intro t u hu
    rcases List.mem_cons.mp hu with rfl | hu
    · exact ⟨t ++ d, rfl⟩
    · exact ih (t ++ d) u hu

theorem textUpdates_length : ∀ (ds : List String) (t : String),
    (textUpdates t ds).length = ds.length := by
  intro ds
  induction ds with
  | nil => intro t; rfl
  | cons d ds ih => intro t; simp [textUpdates, ih]

/-- C4: for a non-empty run of `text.delta` events with payloads `d :: ds`, the
aggregator emits exactly one delta per event, the first being an `add` of the
text chunk with the sentinel id `"__text__"` and text `d`, and every later one
an `update` of that same chunk; the final chunk list holds exactly one text
chunk whose text is the concatenation of all payloads in arrival order. -/
theorem textDelta_aggregation (d : String) (ds : List String) :
    (processEvents ((d :: ds).map .textDelta)).2 =
      .add (.text textChunkId d) :: textUpdates d ds ∧
    (∀ u ∈ textUpdates d ds, ∃ t, u = .update textChunkId (.text t)) ∧
    (processEvents ((d :: ds).map .textDelta)).1.finalChunks =
      [.text textChunkId (d ++ concatList ds)] ∧
    (processEvents ((d :: ds).map .textDelta)).2.length = ds.length + 1 := by
  have hstep :
      processEvents ((d :: ds).map .textDelta) =
        (⟨setChunk (setChunk (fun _ => Option.none) textChunkId (.text textChunkId d))
            textChunkId (.text textChunkId (d ++ concatList ds)), [textChunkId]⟩,
          .add (.text textChunkId d) :: textUpdates d ds) := by
    unfold processEvents
    simp only [List.map_cons, processEventsFrom, processStreamEvent, AggState.empty,
      List.nil_append]
    rw [processEventsFrom_textRun ds _ [textChunkId] textChunkId d (setChunk_same ..)]
    simp
  refine ⟨by rw [hstep], textUpdates_shape ds d, ?_, ?_⟩
  · rw [hstep]
    simp [AggState.finalChunks, setChunk_setChunk, setChunk_same]
  · rw [hstep]
    simp [textUpdates_length]

theorem processEventsFrom_toolRun :
    ∀ (rest : List (String × BtcaToolStatus)) (m : String → Option BtcaChunk)
      (ord : List String) (cid id0 n0 : String) (st0 : ToolState),
      m cid = some (.tool id0 n0 st0) →
      processEventsFrom ⟨m, ord⟩ (rest.map fun p => .toolUpdated cid p.1 p.2) =
        (⟨setChunk m cid (.tool id0 n0 (lastToolState st0 rest)), ord⟩,
          toolUpdates cid rest) := by
  intro rest
  induction rest with
  | nil =>
    intro m ord cid id0 n0 st0 hm
    have hset : setChunk m cid (.tool id0 n0 (lastToolState st0 [])) = m := by
      funext k
      unfold setChunk
      split
      · next hk => subst hk; rw [hm]; rfl
      · rfl
    simp [processEventsFrom, toolUpdates, hset]
  | cons p rest ih =>
    intro m ord cid id0 n0 st0 hm
    obtain ⟨n, st⟩ := p
    simp only [List.map_cons, processEventsFrom, processStreamEvent, hm]
    rw [ih _ ord cid id0 n0 (mapToolStatus st) (setChunk_same ..), setChunk_setChunk]
    simp [toolUpdates, lastToolState]

theorem toolUpdates_shape :
    ∀ (rest : List (String × BtcaToolStatus)) (cid : String), ∀ u ∈ toolUpdates cid rest,
      ∃ st, u = .update cid (.state st) := by
  intro rest
  induction rest with
  | nil => intro cid u hu; simp [toolUpdates] at hu
  | cons p rest ih =>
    intro cid u hu
    obtain ⟨n, st⟩ := p
    rcases List.mem_cons.mp hu with rfl | hu
    · exact ⟨mapToolStatus st, rfl⟩
    · exact ih cid u hu

/-- C5: for a run of `tool.updated` events sharing one call id, with tool names
and collaborator statuses `(n0, st0) :: rest`, the aggregator emits an `add` of
a tool chunk carrying the call id, the first event's tool name and the mapped
status, and one `update` per later event patching only the `state` field — the
final chunk keeps the original `toolName` and holds the mapped status of the
last event.  The status mapping sends `pending` to pending, `running` to
running, and everything else (including `error`) to completed. -/
theorem toolUpdated_aggregation (cid n0 : String) (st0 : BtcaToolStatus)
    (rest : List (String × BtcaToolStatus)) :
    (processEvents (((n0, st0) :: rest).map fun p => .toolUpdated cid p.1 p.2)).2 =
      .add (.tool cid n0 (mapToolStatus st0)) :: toolUpdates cid rest ∧
    (∀ u ∈ toolUpdates cid rest, ∃ st, u = .update cid (.state st)) ∧
    (processEvents (((n0, st0) :: rest).map fun p => .toolUpdated cid p.1 p.2)).1.finalChunks =
      [.tool cid n0 (lastToolState (mapToolStatus st0) rest)] ∧
    mapToolStatus .pending = .pending ∧ mapToolStatus .running = .running ∧
    mapToolStatus .completed = .completed ∧ mapToolStatus .error = .completed := by
  have hstep :
      processEvents (((n0, st0) :: rest).map fun p => .toolUpdated cid p.1 p.2) =
        (⟨setChunk (setChunk (fun _ => Option.none) cid (.tool cid n0 (mapToolStatus st0)))
            cid (.tool cid n0 (lastToolState (mapToolStatus st0) rest)), [cid]⟩,
          .add (.tool cid n0 (mapToolStatus st0)) :: toolUpdates cid rest) := by
    unfold processEvents
    simp only [List.map_cons, processEventsFrom, processStreamEvent, AggState.empty,
      List.nil_append]
    rw [processEventsFrom_toolRun rest _ [cid] cid cid n0 (mapToolStatus st0) (setChunk_same ..)]
    simp
  refine ⟨by rw [hstep], toolUpdates_shape rest cid, ?_, rfl, rfl, rfl, rfl⟩
  rw [hstep]
  simp [AggState.finalChunks, setChunk_setChunk, setChunk_same]

/-! ## Invariants of the aggregator state and replay equivalence (C1, C6)

The invariant `GoodState` captures the aggregator's bookkeeping as long as no
`tool.updated` call id collides with one of the sentinel ids: every id in
`chunkOrder` is mapped, `chunkOrder` has no duplicates, and the chunk stored at
a key is a text chunk exactly at `"__text__"`, a reasoning chunk exactly at
`"__reasoning__"`, and a tool chunk everywhere else. -/

structure GoodState (s : AggState) : Prop where
  mem_iff : ∀ id, id ∈ s.chunkOrder ↔ (s.chunksById id).isSome = true
  nodup : s.chunkOrder.Nodup
  text_ok : ∀ c, s.chunksById textChunkId = some c → ∃ t, c = .text textChunkId t
  reasoning_ok : ∀ c, s.chunksById reasoningChunkId = some c →
    ∃ t, c = .reasoning reasoningChunkId t
  tool_ok : ∀ id c, id ≠ textChunkId → id ≠ reasoningChunkId →
    s.chunksById id = some c → ∃ n st, c = .tool id n st

theorem text_ne_reasoning : textChunkId ≠ reasoningChunkId := by decide

theorem GoodState.empty : GoodState AggState.empty := by
  constructor <;> simp [AggState.empty]

/-- In a good state, the chunk stored at a key carries that key as its id. -/
theorem GoodState.id_of {s : AggState} (hg : GoodState s) :
    ∀ id c, s.chunksById id = some c → c.id = id := by
  intro id c h
  by_cases h1 : id = textChunkId
  · subst h1
    obtain ⟨t, rfl⟩ := hg.text_ok c h
    rfl
  · by_cases h2 : id = reasoningChunkId
    · subst h2
      obtain ⟨t, rfl⟩ := hg.reasoning_ok c h
      rfl
    · obtain ⟨n, st, rfl⟩ := hg.tool_ok id c h1 h2 h
      rfl

theorem goodState_update {s : AggState} (hg : GoodState s) (id : String) (cNew : BtcaChunk)
    (hsome : (s.chunksById id).isSome = true)
    (h1 : id = textChunkId → ∃ t, cNew = .text textChunkId t)
    (h2 : id = reasoningChunkId → ∃ t, cNew = .reasoning reasoningChunkId t)
    (h3 : id ≠ textChunkId → id ≠ reasoningChunkId → ∃ n st, cNew = .tool id n st) :
    GoodState ⟨setChunk s.chunksById id cNew, s.chunkOrder⟩ := by
  constructor
  · intro k
    by_cases hk : k = id
    · subst hk
      simp [setChunk, hg.mem_iff k, hsome]
    · simp [setChunk, hk, hg.mem_iff k]
  · exact hg.nodup
  · intro c hc
    by_cases hk : textChunkId = id
    · simp only [setChunk, if_pos hk, Option.some.injEq] at hc
      obtain ⟨t, ht⟩ := h1 hk.symm
      exact ⟨t, by rw [← hc, ht]⟩
    · simp only [setChunk, if_neg hk] at hc
      exact hg.text_ok c hc
  · intro c hc
    by_cases hk : reasoningChunkId = id
    · simp only [setChunk, if_pos hk, Option.some.injEq] at hc
      obtain ⟨t, ht⟩ := h2 hk.symm
      exact ⟨t, by rw [← hc, ht]⟩
    · simp only [setChunk, if_neg hk] at hc
      exact hg.reasoning_ok c hc
  · intro k c hk1 hk2 hc
    by_cases hk : k = id
    · subst hk
      have hc2 : cNew = c := by simpa [setChunk] using hc
      obtain ⟨n, st, hn⟩ := h3 hk1 hk2
      exact ⟨n, st, by rw [← hc2, hn]⟩
    · simp only [setChunk, if_neg hk] at hc
      exact hg.tool_ok k c hk1 hk2 hc

theorem goodState_add {s : AggState} (hg : GoodState s) (id : String) (cNew : BtcaChunk)
    (hnone : s.chunksById id = Option.none)
    (h1 : id = textChunkId → ∃ t, cNew = .text textChunkId t)
    (h2 : id = reasoningChunkId → ∃ t, cNew = .reasoning reasoningChunkId t)
    (h3 : id ≠ textChunkId → id ≠ reasoningChunkId → ∃ n st, cNew = .tool id n st) :
    GoodState ⟨setChunk s.chunksById id cNew, s.chunkOrder ++ [id]⟩ := by
  have hnotmem : id ∉ s.chunkOrder := by
    intro h
    rw [hg.mem_iff id, hnone] at h
    simp at h
  constructor
  · intro k
    by_cases hk : k = id
    · subst hk
      simp [setChunk]
    · simp [setChunk, hk, hg.mem_iff k]
  · simp [List.nodup_append, hg.nodup, hnotmem]
  · intro c hc
    by_cases hk : textChunkId = id
    · simp only [setChunk, if_pos hk, Option.some.injEq] at hc
      obtain ⟨t, ht⟩ := h1 hk.symm
      exact ⟨t, by rw [← hc, ht]⟩
    · simp only [setChunk, if_neg hk] at hc
      exact hg.text_ok c hc
  · intro c hc
    by_cases hk : reasoningChunkId = id
    · simp only [setChunk, if_pos hk, Option.some.injEq] at hc
      obtain ⟨t, ht⟩ := h2 hk.symm
      exact ⟨t, by rw [← hc, ht]⟩
    · simp only [setChunk, if_neg hk] at hc
      exact hg.reasoning_ok c hc
  · intro k c hk1 hk2 hc
    by_cases hk : k = id
    · subst hk
      have hc2 : cNew = c := by simpa [setChunk] using hc
      obtain ⟨n, st, hn⟩ := h3 hk1 hk2
      exact ⟨n, st, by rw [← hc2, hn]⟩
    · simp only [setChunk, if_neg hk] at hc
      exact hg.tool_ok k c hk1 hk2 hc

/-- The consumer's `update` step agrees with rebuilding the list from the
updated map, as long as stored chunks carry their keys as ids. -/
theorem replay_update (ord : List String) (m : String → Option BtcaChunk)
    (id : String) (cOld cNew : BtcaChunk) (p : ChunkPatch)
    (hids : ∀ k c, m k = some c → c.id = k)
    (hold : m id = some cOld)
    (hmerge : mergePatch cOld p = cNew) :
    (ord.filterMap m).map (fun ch => if ch.id = id then mergePatch ch p else ch) =
      ord.filterMap (setChunk m id cNew) := by
  rw [List.map_filterMap]
  refine List.filterMap_congr ?_
  intro k _
  by_cases hk : k = id
  · subst hk
    rw [hold]
    have hid : cOld.id = k := hids k cOld hold
    simp [setChunk, hid, hmerge]
  · cases hmk : m k with
    | none => simp [setChunk, hk, hmk]
    | some ch =>
      have hid : ch.id = k := hids k ch hmk
      simp [setChunk, hk, hmk, hid]

/-- The consumer's `add` step agrees with rebuilding the list from the updated
map and order, as long as the added id is fresh. -/
theorem replay_add (ord : List String) (m : String → Option BtcaChunk)
    (id : String) (c : BtcaChunk) (hnot : id ∉ ord) :
    (ord.filterMap m) ++ [c] = (ord ++ [id]).filterMap (setChunk m id c) := by
  rw [List.filterMap_append]
  congr 1
  · refine (List.filterMap_congr ?_).symm
    intro k hk
    have : k ≠ id := fun h => hnot (h ▸ hk)
    simp [setChunk, this]
  · simp [setChunk]

/-- Branch equations of `processStreamEvent`. -/
theorem pse_text_update (s : AggState) (d id0 t : String)
    (hm : s.chunksById textChunkId = some (.text id0 t)) :
    processStreamEvent (.textDelta d) s =
      (⟨setChunk s.chunksById textChunkId (.text id0 (t ++ d)), s.chunkOrder⟩,
        some (.update textChunkId (.text (t ++ d)))) := by
  simp [processStreamEvent, hm]

theorem pse_text_add (s : AggState) (d : String)
    (hm : s.chunksById textChunkId = Option.none) :
    processStreamEvent (.textDelta d) s =
      (⟨setChunk s.chunksById textChunkId (.text textChunkId d),
          s.chunkOrder ++ [textChunkId]⟩,
        some (.add (.text textChunkId d))) := by
  simp [processStreamEvent, hm]

theorem pse_reasoning_update (s : AggState) (d id0 t : String)
    (hm : s.chunksById reasoningChunkId = some (.reasoning id0 t)) :
    processStreamEvent (.reasoningDelta d) s =
      (⟨setChunk s.chunksById reasoningChunkId (.reasoning id0 (t ++ d)), s.chunkOrder⟩,
        some (.update reasoningChunkId (.text (t ++ d)))) := by
  simp [processStreamEvent, hm]

theorem pse_reasoning_add (s : AggState) (d : String)
    (hm : s.chunksById reasoningChunkId = Option.none) :
    processStreamEvent (.reasoningDelta d) s =
      (⟨setChunk s.chunksById reasoningChunkId (.reasoning reasoningChunkId d),
          s.chunkOrder ++ [reasoningChunkId]⟩,
        some (.add (.reasoning reasoningChunkId d))) := by
  simp [processStreamEvent, hm]

theorem pse_tool_update (s : AggState) (cid n : String) (stE : BtcaToolStatus)
    (id0 n0 : String) (st0 : ToolState)
    (hm : s.chunksById cid = some (.tool id0 n0 st0)) :
    processStreamEvent (.toolUpdated cid n stE) s =
      (⟨setChunk s.chunksById cid (.tool id0 n0 (mapToolStatus stE)), s.chunkOrder⟩,
        some (.update cid (.state (mapToolStatus stE)))) := by
  simp [processStreamEvent, hm]

theorem pse_tool_add (s : AggState) (cid n : String) (stE : BtcaToolStatus)
    (hm : s.chunksById cid = Option.none) :
    processStreamEvent (.toolUpdated cid n stE) s =
      (⟨setChunk s.chunksById cid (.tool cid n (mapToolStatus stE)),
          s.chunkOrder ++ [cid]⟩,
        some (.add (.tool cid n (mapToolStatus stE)))) := by
  simp [processStreamEvent, hm]

/-- One aggregator step preserves `GoodState`, never changes the variant (type)
of an already-stored chunk, and commutes with the client reducer: feeding the
emitted delta (if any) to the reducer takes the server's rebuilt chunk list to
the new rebuilt chunk list. -/
theorem goodStep (e : BtcaStreamEvent) (s : AggState) (hg : GoodState s)
    (hc : e.collidesWithSentinel = false) :
    GoodState (processStreamEvent e s).1 ∧
    (∀ id c, s.chunksById id = some c →
      ∃ c', (processStreamEvent e s).1.chunksById id = some c' ∧ c'.tag = c.tag) ∧
    (processStreamEvent e s).2.toList.foldl applyChunkUpdate s.finalChunks =
      (processStreamEvent e s).1.finalChunks := by
  cases e with
  | meta => exact ⟨hg, fun id c h => ⟨c, h, rfl⟩, rfl⟩
  | done => exact ⟨hg, fun id c h => ⟨c, h, rfl⟩, rfl⟩
  | error => exact ⟨hg, fun id c h => ⟨c, h, rfl⟩, rfl⟩
  | textDelta d =>
    cases hm : s.chunksById textChunkId with
    | none =>
      rw [pse_text_add s d hm]
      refine ⟨goodState_add hg _ _ hm (fun _ => ⟨d, rfl⟩)
        (fun h => absurd h.symm (Ne.symm text_ne_reasoning))
        (fun h _ => absurd rfl h), ?_, ?_⟩
      · intro id c h
        by_cases hid : id = textChunkId
        · subst hid; rw [hm] at h; cases h
        · exact ⟨c, by simp [setChunk, hid, h], rfl⟩
      · have hnot : textChunkId ∉ s.chunkOrder := by
          intro hmem
          rw [hg.mem_iff, hm] at hmem
          simp at hmem
        show applyChunkUpdate s.finalChunks (.add (.text textChunkId d)) = _
        simp only [applyChunkUpdate, AggState.finalChunks]
        exact replay_add s.chunkOrder s.chunksById textChunkId _ hnot
    | some c0 =>
      obtain ⟨t, rfl⟩ := hg.text_ok c0 hm
      rw [pse_text_update s d textChunkId t hm]
      refine ⟨goodState_update hg _ _ (by rw [hm]; rfl) (fun _ => ⟨t ++ d, rfl⟩)
        (fun h => absurd h.symm (Ne.symm text_ne_reasoning))
        (fun h _ => absurd rfl h), ?_, ?_⟩
      · intro id c h
        by_cases hid : id = textChunkId
        · subst hid
          rw [hm] at h
          injection h with h
          subst h
          exact ⟨.text textChunkId (t ++ d), by simp [setChunk], rfl⟩
        · exact ⟨c, by simp [setChunk, hid, h], rfl⟩
      · show applyChunkUpdate s.finalChunks (.update textChunkId (.text (t ++ d))) = _
        simp only [applyChunkUpdate, AggState.finalChunks]
        exact replay_update s.chunkOrder s.chunksById textChunkId (.text textChunkId t)
          (.text textChunkId (t ++ d)) (.text (t ++ d)) hg.id_of hm rfl
  | reasoningDelta d =>
    cases hm : s.chunksById reasoningChunkId with
    | none =>
      rw [pse_reasoning_add s d hm]
      refine ⟨goodState_add hg _ _ hm (fun h => absurd h.symm text_ne_reasoning)
        (fun _ => ⟨d, rfl⟩) (fun _ h => absurd rfl h), ?_, ?_⟩
      · intro id c h
        by_cases hid : id = reasoningChunkId
        · subst hid; rw [hm] at h; cases h
        · exact ⟨c, by simp [setChunk, hid, h], rfl⟩
      · have hnot : reasoningChunkId ∉ s.chunkOrder := by
          intro hmem
          rw [hg.mem_iff, hm] at hmem
          simp at hmem
        show applyChunkUpdate s.finalChunks (.add (.reasoning reasoningChunkId d)) = _
        simp only [applyChunkUpdate, AggState.finalChunks]
        exact replay_add s.chunkOrder s.chunksById reasoningChunkId _ hnot
    | some c0 =>
      obtain ⟨t, rfl⟩ := hg.reasoning_ok c0 hm
      rw [pse_reasoning_update s d reasoningChunkId t hm]
      refine ⟨goodState_update hg _ _ (by rw [hm]; rfl)
        (fun h => absurd h.symm text_ne_reasoning)
        (fun _ => ⟨t ++ d, rfl⟩) (fun _ h => absurd rfl h), ?_, ?_⟩
      · intro id c h
        by_cases hid : id = reasoningChunkId
        · subst hid
          rw [hm] at h
          injection h with h
          subst h
          exact ⟨.reasoning reasoningChunkId (t ++ d), by simp [setChunk], rfl⟩
        · exact ⟨c, by simp [setChunk, hid, h], rfl⟩
      · show applyChunkUpdate s.finalChunks (.update reasoningChunkId (.text (t ++ d))) = _
        simp only [applyChunkUpdate, AggState.finalChunks]
        exact replay_update s.chunkOrder s.chunksById reasoningChunkId
          (.reasoning reasoningChunkId t) (.reasoning reasoningChunkId (t ++ d))
          (.text (t ++ d)) hg.id_of hm rfl
  | toolUpdated cid n stE =>
    have hcid : cid ≠ textChunkId ∧ cid ≠ reasoningChunkId := by
      constructor <;> (intro h; subst h; simp [BtcaStreamEvent.collidesWithSentinel] at hc)
    cases hm : s.chunksById cid with
    | none =>
      rw [pse_tool_add s cid n stE hm]
      refine ⟨goodState_add hg _ _ hm (fun h => absurd h hcid.1) (fun h => absurd h hcid.2)
        (fun _ _ => ⟨n, mapToolStatus stE, rfl⟩), ?_, ?_⟩
      · intro id c h
        by_cases hid : id = cid
        · subst hid; rw [hm] at h; cases h
        · exact ⟨c, by simp [setChunk, hid, h], rfl⟩
      · have hnot : cid ∉ s.chunkOrder := by
          intro hmem
          rw [hg.mem_iff, hm] at hmem
          simp at hmem
        show applyChunkUpdate s.finalChunks (.add (.tool cid n (mapToolStatus stE))) = _
        simp only [applyChunkUpdate, AggState.finalChunks]
        exact replay_add s.chunkOrder s.chunksById cid _ hnot
    | some c0 =>
      obtain ⟨n0, st0, rfl⟩ := hg.tool_ok cid c0 hcid.1 hcid.2 hm
      rw [pse_tool_update s cid n stE cid n0 st0 hm]
      refine ⟨goodState_update hg _ _ (by rw [hm]; rfl) (fun h => absurd h hcid.1)
        (fun h => absurd h hcid.2) (fun _ _ => ⟨n0, mapToolStatus stE, rfl⟩), ?_, ?_⟩
      · intro k c h
        by_cases hk2 : k = cid
        · subst hk2
          rw [hm] at h
          injection h with h
          subst h
          exact ⟨.tool k n0 (mapToolStatus stE), by simp [setChunk], rfl⟩
        · exact ⟨c, by simp [setChunk, hk2, h], rfl⟩
      · show applyChunkUpdate s.finalChunks (.update cid (.state (mapToolStatus stE))) = _
        simp only [applyChunkUpdate, AggState.finalChunks]
        exact replay_update s.chunkOrder s.chunksById cid (.tool cid n0 st0)
          (.tool cid n0 (mapToolStatus stE)) (.state (mapToolStatus stE)) hg.id_of hm rfl

/-- Running the aggregator over a collision-free event sequence preserves
`GoodState`, never changes a stored chunk's variant, and the reducer replay of
the emitted deltas tracks the server's rebuilt chunk list. -/
theorem goodRun : ∀ (events : List BtcaStreamEvent),
    (∀ e ∈ events, e.collidesWithSentinel = false) →
    ∀ s : AggState, GoodState s →
      GoodState (processEventsFrom s events).1 ∧
      (∀ id c, s.chunksById id = some c →
        ∃ c', (processEventsFrom s events).1.chunksById id = some c' ∧ c'.tag = c.tag) ∧
      (processEventsFrom s events).2.foldl applyChunkUpdate s.finalChunks =
        (processEventsFrom s events).1.finalChunks := by
  intro events
  induction events with
  | nil => exact fun _ s hg => ⟨hg, fun id c h => ⟨c, h, rfl⟩, rfl⟩
  | cons e es ih =>
    intro hall s hg
    have he : e.collidesWithSentinel = false := hall e (List.mem_cons_self e es)
    have hes : ∀ x ∈ es, x.collidesWithSentinel = false :=
      fun x hx => hall x (List.mem_cons_of_mem _ hx)
    obtain ⟨hg1, hmono1, hrep1⟩ := goodStep e s hg he
    obtain ⟨hg2, hmono2, hrep2⟩ := ih hes (processStreamEvent e s).1 hg1
    refine ⟨hg2, ?_, ?_⟩
    · intro id c h
      obtain ⟨c1, h1, ht1⟩ := hmono1 id c h
      obtain ⟨c2, h2, ht2⟩ := hmono2 id c1 h1
      exact ⟨c2, h2, ht2.trans ht1⟩
    · simp only [processEventsFrom]
      rw [List.foldl_append, hrep1, hrep2]

theorem filterMap_map_id (l : List String) (m : String → Option BtcaChunk)
    (h : ∀ k ∈ l, ∃ c, m k = some c ∧ c.id = k) :
    (l.filterMap m).map BtcaChunk.id = l := by
  induction l with
  | nil => rfl
  | cons k l ih =>
    obtain ⟨c, hm, hid⟩ := h k (List.mem_cons_self k l)
    simp only [List.filterMap_cons, hm, List.map_cons, hid]
    rw [ih fun x hx => h x (List.mem_cons_of_mem _ hx)]

theorem processEventsFrom_append (s : AggState) (l1 l2 : List BtcaStreamEvent) :
    processEventsFrom s (l1 ++ l2) =
      ((processEventsFrom (processEventsFrom s l1).1 l2).1,
        (processEventsFrom s l1).2 ++ (processEventsFrom (processEventsFrom s l1).1 l2).2) := by
  induction l1 generalizing s with
  | nil => simp [processEventsFrom]
  | cons e l1 ih =>
    simp only [List.cons_append, processEventsFrom, List.append_eq]
    rw [ih]
    simp [List.append_assoc]

/-- C1, counterexample: for the event sequence `[text.delta "a",
tool.updated(callID = "__text__")]`, replaying the emitted add/update deltas
from an empty list gives `[text chunk, tool chunk]`, while the aggregator's own
`chunkOrder` mapped through `chunksById` gives `[tool chunk, tool chunk]` — the
two consumers of the claim disagree. -/
theorem replay_collision_counterexample :
    replayUpdates
        (processEvents [.textDelta "a", .toolUpdated "__text__" "grep" .pending]).2 ≠
      (processEvents [.textDelta "a", .toolUpdated "__text__" "grep" .pending]).1.finalChunks := by
  decide

/-- C1, amended claim: for every event sequence in which no `tool.updated` call
id collides with the sentinel ids `"__text__"`/`"__reasoning__"`, a consumer
that starts from the empty chunk list and applies the emitted add/update deltas
in order ends with exactly the chunk list the aggregator holds (`chunkOrder`
mapped through `chunksById`); determinism of two runs on the same sequence is
immediate since the aggregator is a pure function of the event sequence. -/
theorem replay_reconstructs_aggregator (events : List BtcaStreamEvent)
    (h : ∀ e ∈ events, e.collidesWithSentinel = false) :
    replayUpdates (processEvents events).2 = (processEvents events).1.finalChunks :=
  (goodRun events h AggState.empty GoodState.empty).2.2

/-- Witness for the amended C1 theorem on a concrete mixed event sequence. -/
theorem replay_reconstructs_aggregator_witness :
    (∀ e ∈ ([.textDelta "Hello, ", .reasoningDelta "mull", .toolUpdated "call1" "grep" .pending,
        .textDelta "world!", .toolUpdated "call1" "grep" .error, .done] :
        List BtcaStreamEvent), e.collidesWithSentinel = false) ∧
    replayUpdates
        (processEvents [.textDelta "Hello, ", .reasoningDelta "mull",
          .toolUpdated "call1" "grep" .pending, .textDelta "world!",
          .toolUpdated "call1" "grep" .error, .done]).2 =
      (processEvents [.textDelta "Hello, ", .reasoningDelta "mull",
        .toolUpdated "call1" "grep" .pending, .textDelta "world!",
        .toolUpdated "call1" "grep" .error, .done]).1.finalChunks :=
  ⟨by decide, replay_reconstructs_aggregator _ (by decide)⟩

/-- C6, counterexample: after `[text.delta "a", tool.updated(callID =
"__text__")]` the id `"__text__"` occurs twice in the aggregator's chunk list,
and the chunk stored under `"__text__"` changed its type from `text` to
`tool`. -/
theorem chunk_invariants_collision_counterexample :
    ¬ (((processEvents [.textDelta "a",
          .toolUpdated textChunkId "grep" .pending]).1.finalChunks.map BtcaChunk.id).Nodup) ∧
    (processEvents [.textDelta "a"]).1.chunksById textChunkId =
      some (.text textChunkId "a") ∧
    (processEvents [.textDelta "a",
        .toolUpdated textChunkId "grep" .pending]).1.chunksById textChunkId =
      some (.tool textChunkId "grep" .pending) := by
  refine ⟨by decide, by decide, by decide⟩

/-- C6, amended claim: for every event sequence in which no `tool.updated` call
id collides with the sentinel ids, every chunk id occurs at most once in the
resulting chunk list, and the variant (type) of the chunk stored under any id
never changes between any prefix of the run and the full run. -/
theorem chunk_ids_unique_and_types_stable (events : List BtcaStreamEvent)
    (h : ∀ e ∈ events, e.collidesWithSentinel = false) :
    ((processEvents events).1.finalChunks.map BtcaChunk.id).Nodup ∧
    (∀ pre post, events = pre ++ post →
      ∀ id c c', (processEvents pre).1.chunksById id = some c →
        (processEvents events).1.chunksById id = some c' → c'.tag = c.tag) := by
  have hg : GoodState (processEvents events).1 :=
    (goodRun events h AggState.empty GoodState.empty).1
  constructor
  · have hids : ∀ k ∈ (processEvents events).1.chunkOrder,
        ∃ c, (processEvents events).1.chunksById k = some c ∧ c.id = k := by
      intro k hk
      have hsome := (hg.mem_iff k).mp hk
      cases hmk : (processEvents events).1.chunksById k with
      | none => rw [hmk] at hsome; cases hsome
      | some c => exact ⟨c, rfl, hg.id_of k c hmk⟩
    rw [AggState.finalChunks, filterMap_map_id _ _ hids]
    exact hg.nodup
  · intro pre post hsplit id c c' hc hc'
    have hpre : ∀ e ∈ pre, e.collidesWithSentinel = false :=
      fun e he => h e (hsplit ▸ List.mem_append_left _ he)
    have hpost : ∀ e ∈ post, e.collidesWithSentinel = false :=
      fun e he => h e (hsplit ▸ List.mem_append_right _ he)
    have hgpre : GoodState (processEvents pre).1 :=
      (goodRun pre hpre AggState.empty GoodState.empty).1
    have hmono := (goodRun post hpost (processEvents pre).1 hgpre).2.1 id c hc
    obtain ⟨c2, h2, ht2⟩ := hmono
    have : (processEvents events).1.chunksById id = some c2 := by
      unfold processEvents
      rw [hsplit, processEventsFrom_append]
      exact h2
    rw [this] at hc'
    injection hc' with hc'
    rw [← hc']
    exact ht2

/-- Witness for the amended C6 theorem on a concrete sequence and split. -/
theorem chunk_ids_unique_and_types_stable_witness :
    (∀ e ∈ ([.textDelta "a", .textDelta "b"] : List BtcaStreamEvent),
      e.collidesWithSentinel = false) ∧
    ((processEvents [.textDelta "a", .textDelta "b"]).1.finalChunks.map BtcaChunk.id).Nodup ∧
    (BtcaChunk.text textChunkId "ab").tag = (BtcaChunk.text textChunkId "a").tag :=
  ⟨by decide,
    (chunk_ids_unique_and_types_stable _ (by decide)).1,
    (chunk_ids_unique_and_types_stable [.textDelta "a", .textDelta "b"] (by decide)).2
      [.textDelta "a"] [.textDelta "b"] rfl textChunkId
      (.text textChunkId "a") (.text textChunkId "ab") (by decide) (by decide)⟩

/-! ## JSONC stripping on comment-free, trailing-comma-free input (C10) -/

theorem noCommentOpeners_stripComments :
    ∀ (l : List Char) (q : Option Char) (esc : Bool),
      noCommentOpeners l q esc = true → stripCommentsAux l q esc = l := by
  intro l
  induction l with
  | nil => intro q esc _; cases q <;> simp [stripCommentsAux]
  | cons c cs ih =>
    intro q esc h
    cases q with
    | some qc =>
      simp only [noCommentOpeners] at h
      simp only [stripCommentsAux]
      cases esc with
      | true =>
        simp only [if_pos] at h ⊢
        rw [ih _ _ h]
      | false =>
        simp only [Bool.false_eq_true, if_false] at h ⊢
        by_cases h2 : c = '\\'
        · simp only [if_pos h2] at h ⊢
          rw [ih _ _ h]
        · simp only [if_neg h2] at h ⊢
          by_cases h3 : c = qc
          · simp only [if_pos h3] at h ⊢
            rw [ih _ _ h]
          · simp only [if_neg h3] at h ⊢
            rw [ih _ _ h]
    | none =>
      simp only [noCommentOpeners] at h
      simp only [stripCommentsAux]
      by_cases h1 : (c = '/' && cs.head? = some '/') = true
      · rw [if_pos h1] at h
        cases h
      · rw [if_neg h1] at h ⊢
        by_cases h2 : (c = '/' && cs.head? = some '*') = true
        · rw [if_pos h2] at h
          cases h
        · rw [if_neg h2] at h ⊢
          by_cases h3 : (c = '"' || c = singleQuoteChar) = true
          · rw [if_pos h3] at h ⊢
            rw [ih _ _ h]
          · rw [if_neg h3] at h ⊢
            rw [ih _ _ h]

theorem noTrailingCommas_stripTrailingCommas :
    ∀ (l : List Char) (q : Option Char) (esc : Bool),
      noTrailingCommas l q esc = true → stripTrailingCommasAux l q esc = l := by
  intro l
  induction l with
  | nil => intro q esc _; cases q <;> rfl
  | cons c cs ih =>
    intro q esc h
    cases q with
    | some qc =>
      simp only [noTrailingCommas] at h
      simp only [stripTrailingCommasAux]
      cases esc with
      | true =>
        simp only [if_pos] at h ⊢
        rw [ih _ _ h]
      | false =>
        simp only [Bool.false_eq_true, if_false] at h ⊢
        by_cases h2 : c = '\\'
        · simp only [if_pos h2] at h ⊢
          rw [ih _ _ h]
        · simp only [if_neg h2] at h ⊢
          by_cases h3 : c = qc
          · simp only [if_pos h3] at h ⊢
            rw [ih _ _ h]
          · simp only [if_neg h3] at h ⊢
            rw [ih _ _ h]
    | none =>
      simp only [noTrailingCommas] at h
      simp only [stripTrailingCommasAux]
      by_cases h1 : (c = '"' || c = singleQuoteChar) = true
      · rw [if_pos h1] at h ⊢
        rw [ih _ _ h]
      · rw [if_neg h1] at h ⊢
        by_cases h2 : c = ','
        · rw [if_pos h2] at h ⊢
          by_cases h3 : ((cs.dropWhile jsWhitespace).head? = some ']' ||
              (cs.dropWhile jsWhitespace).head? = some '}') = true
          · rw [if_pos h3] at h
            cases h
          · rw [if_neg h3] at h ⊢
            rw [ih _ _ h]
        · rw [if_neg h2] at h ⊢
          rw [ih _ _ h]

/-- The comment-removal scan copies a string-literal body verbatim: from inside
a string opened with quote `q`, every character up to and including the closing
quote is emitted unchanged, whatever it looks like (`//`, `/*`, commas…). -/
theorem stripComments_preserves_string_body :
    ∀ (body : List Char) (q : Char) (esc : Bool) (rest : List Char), q ≠ '\\' →
      stringScan q body esc = some false →
      stripCommentsAux (body ++ q :: rest) (some q) esc =
        body ++ q :: stripCommentsAux rest Option.none false := by
  intro body
  induction body with
  | nil =>
    intro q esc rest hq h
    simp only [stringScan, Option.some.injEq] at h
    subst h
    simp only [List.nil_append, stripCommentsAux]
    simp [hq]
  | cons c cs ih =>
    intro q esc rest hq h
    cases esc with
    | true =>
      simp only [stringScan] at h
      simp only [List.cons_append, stripCommentsAux, if_pos]
      rw [ih q false rest hq h]
    | false =>
      simp only [stringScan] at h
      simp only [List.cons_append, stripCommentsAux]
      by_cases h1 : c = '\\'
      · rw [if_pos h1] at h
        rw [if_neg (by simp), if_pos h1, ih q true rest hq h]
      · rw [if_neg h1] at h
        by_cases h2 : c = q
        · rw [if_pos h2] at h
          cases h
        · rw [if_neg h2] at h
          rw [if_neg (by simp), if_neg h1, if_neg h2,
            ih q false rest hq h]

/-- The trailing-comma scan likewise copies a string-literal body verbatim. -/
theorem stripTrailingCommas_preserves_string_body :
    ∀ (body : List Char) (q : Char) (esc : Bool) (rest : List Char), q ≠ '\\' →
      stringScan q body esc = some false →
      stripTrailingCommasAux (body ++ q :: rest) (some q) esc =
        body ++ q :: stripTrailingCommasAux rest Option.none false := by
  intro body
  induction body with
  | nil =>
    intro q esc rest hq h
    simp only [stringScan, Option.some.injEq] at h
    subst h
    simp only [List.nil_append, stripTrailingCommasAux]
    simp [hq]
  | cons c cs ih =>
    intro q esc rest hq h
    cases esc with
    | true =>
      simp only [stringScan] at h
      simp only [List.cons_append, List.append_eq, stripTrailingCommasAux, if_pos]
      rw [ih q false rest hq h]
    | false =>
      simp only [stringScan] at h
      simp only [List.cons_append, List.append_eq, stripTrailingCommasAux]
      by_cases h1 : c = '\\'
      · rw [if_pos h1] at h
        rw [if_neg (by simp), if_pos h1, ih q true rest hq h]
      · rw [if_neg h1] at h
        by_cases h2 : c = q
        · rw [if_pos h2] at h
          cases h
        · rw [if_neg h2] at h
          rw [if_neg (by simp), if_neg h1, if_neg h2,
            ih q false rest hq h]

/-- C10: on input with no `//` or `/*` opener and no trailing comma outside
string literals — in particular on every output of `JSON.stringify` —
`stripJsonc` is the identity up to trimming leading and trailing whitespace
(so `parseJsonc = JSON.parse ∘ stripJsonc` agrees with `JSON.parse` there);
and neither scan ever removes a character that sits inside a string literal,
for any input. -/
theorem stripJsonc_plain_json_identity :
    (∀ l : List Char, noCommentOpeners l Option.none false = true →
      noTrailingCommas l Option.none false = true → stripJsonc l = jsTrim l) ∧
    (∀ (q : Char) (body rest : List Char) (esc : Bool), q ≠ '\\' →
      stringScan q body esc = some false →
      stripCommentsAux (body ++ q :: rest) (some q) esc =
        body ++ q :: stripCommentsAux rest Option.none false) ∧
    (∀ (q : Char) (body rest : List Char) (esc : Bool), q ≠ '\\' →
      stringScan q body esc = some false →
      stripTrailingCommasAux (body ++ q :: rest) (some q) esc =
        body ++ q :: stripTrailingCommasAux rest Option.none false) := by
  refine ⟨?_, fun q body rest esc hq h =>
      stripComments_preserves_string_body body q esc rest hq h,
    fun q body rest esc hq h =>
      stripTrailingCommas_preserves_string_body body q esc rest hq h⟩
  intro l h1 h2
  unfold stripJsonc
  rw [noCommentOpeners_stripComments l Option.none false h1,
    noTrailingCommas_stripTrailingCommas l Option.none false h2]

/-- Witness for C10 at a concrete plain-JSON document (with a `//` inside a
string literal) and a concrete string body containing comment openers and
commas. -/
theorem stripJsonc_plain_json_identity_witness :
    noCommentOpeners "\x7b \"url\": \"https://x\", \"n\": [1, 2] \x7d".toList Option.none false
        = true ∧
    noTrailingCommas "\x7b \"url\": \"https://x\", \"n\": [1, 2] \x7d".toList Option.none false
        = true ∧
    stripJsonc "\x7b \"url\": \"https://x\", \"n\": [1, 2] \x7d".toList =
      jsTrim "\x7b \"url\": \"https://x\", \"n\": [1, 2] \x7d".toList ∧
    stringScan '"' "a//b, /* c".toList false = some false ∧
    stripCommentsAux ("a//b, /* c".toList ++ '"' :: "\x7d".toList) (some '"') false =
      "a//b, /* c".toList ++ '"' :: stripCommentsAux "\x7d".toList Option.none false :=
  ⟨by decide, by decide,
    stripJsonc_plain_json_identity.1 _ (by decide) (by decide),
    by decide,
    stripJsonc_plain_json_identity.2.1 '"' _ _ false (by decide) (by decide)⟩

/-! ## The collection loader re-syncs and re-links on every call (C3) -/

theorem loadResourcesLoop_ok_cond :
    ∀ (ns : List String) (env : ServerEnv) (s : FsState) (rs : List BtcaFsResource)
      (sA : FsState) (ops : List FsOp),
      loadResourcesLoop env s ns = (.ok rs, sA, ops) →
      (∀ n ∈ ns, (env.resources n).isSome = true ∧ env.syncFails n = false) ∧
      rs = ns.filterMap env.resources := by
  intro ns
  induction ns with
  | nil =>
    intro env s rs sA ops h
    simp only [loadResourcesLoop, Prod.mk.injEq, Except.ok.injEq] at h
    exact ⟨by simp, by simp [← h.1]⟩
  | cons n rest ih =>
    intro env s rs sA ops h
    simp only [loadResourcesLoop, loadResource] at h
    cases hres : env.resources n with
    | none => rw [hres] at h; simp at h
    | some r =>
      rw [hres] at h
      cases hf : env.syncFails n with
      | true => rw [hf] at h; simp at h
      | false =>
        rw [hf] at h
        simp only [Bool.false_eq_true, if_false] at h
        rcases hrec : loadResourcesLoop env
            { s with checkouts := if n ∈ s.checkouts then s.checkouts else s.checkouts ++ [n] }
            rest with ⟨res2, s2, ops2⟩
        rw [hrec] at h
        cases res2 with
        | error e => simp at h
        | ok rs2 =>
          simp only [Prod.mk.injEq, Except.ok.injEq] at h
          obtain ⟨hcond, hrs2⟩ := ih env _ rs2 s2 ops2 hrec
          refine ⟨?_, ?_⟩
          · intro x hx
            rcases List.mem_cons.mp hx with rfl | hx
            · exact ⟨by rw [hres]; rfl, hf⟩
            · exact hcond x hx
          · rw [← h.1, hrs2]
            simp [List.filterMap_cons, hres]

theorem loadResourcesLoop_runs :
    ∀ (ns : List String) (env : ServerEnv) (s : FsState),
      (∀ n ∈ ns, (env.resources n).isSome = true ∧ env.syncFails n = false) →
      ∃ sA ops, loadResourcesLoop env s ns = (.ok (ns.filterMap env.resources), sA, ops) ∧
        (ns = [] ∨ ∃ n, FsOp.gitPull n ∈ ops ∨ FsOp.gitClone n ∈ ops) := by
  intro ns
  induction ns with
  | nil => intro env s _; exact ⟨s, [], by simp [loadResourcesLoop], Or.inl rfl⟩
  | cons n rest ih =>
    intro env s hcond
    obtain ⟨hsome, hf⟩ := hcond n (List.mem_cons_self n rest)
    cases hres : env.resources n with
    | none => rw [hres] at hsome; cases hsome
    | some r =>
      obtain ⟨sA, ops, hrec, _⟩ :=
        ih env { s with checkouts := if n ∈ s.checkouts then s.checkouts else s.checkouts ++ [n] }
          (fun x hx => hcond x (List.mem_cons_of_mem _ hx))
      refine ⟨sA, (if n ∈ s.checkouts then FsOp.gitPull n else FsOp.gitClone n) :: ops, ?_, ?_⟩
      · simp only [loadResourcesLoop, loadResource, hres, hf, Bool.false_eq_true, if_false]
        rw [hrec]
        simp [List.filterMap_cons, hres]
      · refine Or.inr ⟨n, ?_⟩
        by_cases hc : n ∈ s.checkouts
        · left; simp [hc]
        · right; simp [hc]

theorem linkResourcesLoop_head_symlink (key : String) (s : FsState)
    (r : BtcaFsResource) (rs : List BtcaFsResource) :
    FsOp.symlink key r.name ∈ (linkResourcesLoop key s (r :: rs)).2 := by
  simp only [linkResourcesLoop]
  by_cases hE : (key, r.name) ∈ s.entries <;> simp [hE]

/-- Unfolding `collectionsLoad` on its success path. -/
theorem collectionsLoad_ok_unfold (env : ServerEnv) (s : FsState) (names : List String)
    (rs : List BtcaFsResource) (sA : FsState) (opsA : List FsOp)
    (hne : ¬ jsSetDedup names = [])
    (h1 : loadResourcesLoop env s (jsSort (jsSetDedup names)) = (.ok rs, sA, opsA)) :
    collectionsLoad env s names =
      (.ok ⟨env.collectionsDirectory ++ "/" ++ getCollectionKey (jsSort (jsSetDedup names)),
          buildAgentInstructions env.fsResourceSystemNote rs⟩,
        (linkResourcesLoop (getCollectionKey (jsSort (jsSetDedup names))) sA rs).1,
        FsOp.makeDirectory (env.collectionsDirectory ++ "/" ++
            getCollectionKey (jsSort (jsSetDedup names))) ::
          (opsA ++
            (linkResourcesLoop (getCollectionKey (jsSort (jsSetDedup names))) sA rs).2)) := by
  unfold collectionsLoad
  rw [if_neg hne, h1]

/-- Unfolding `collectionsLoad` on a failed member load. -/
theorem collectionsLoad_error_unfold (env : ServerEnv) (s : FsState) (names : List String)
    (e : CollectionError) (sA : FsState) (opsA : List FsOp)
    (hne : ¬ jsSetDedup names = [])
    (h1 : loadResourcesLoop env s (jsSort (jsSetDedup names)) = (.error e, sA, opsA)) :
    collectionsLoad env s names =
      (.error e, sA,
        FsOp.makeDirectory (env.collectionsDirectory ++ "/" ++
          getCollectionKey (jsSort (jsSetDedup names))) :: opsA) := by
  unfold collectionsLoad
  rw [if_neg hne, h1]

/-- C3, amended claim: calling `Collections.load` a second time with the same
resource-name set (member resources unchanged, i.e. same environment) succeeds
and returns the same collection path and the same generated instructions — but
it is not a cache hit: the second call again performs a sync (pull or clone)
for a member and again creates a member symlink, because the code
unconditionally re-loads every member and removes/re-creates every link. -/
theorem collectionsLoad_second_call_same_result_but_resyncs
    (env : ServerEnv) (s : FsState) (names : List String)
    (r1 : CollectionResult) (s1 : FsState) (ops1 : List FsOp)
    (h : collectionsLoad env s names = (.ok r1, s1, ops1)) :
    ∃ s2 ops2,
      collectionsLoad env s1 names = (.ok r1, s2, ops2) ∧
      (∃ n, FsOp.gitPull n ∈ ops2 ∨ FsOp.gitClone n ∈ ops2) ∧
      (∃ k n, FsOp.symlink k n ∈ ops2) := by
  by_cases hempty : jsSetDedup names = []
  · rw [collectionsLoad_rejects_empty env s names hempty] at h
    simp at h
  · rcases h1 : loadResourcesLoop env s (jsSort (jsSetDedup names)) with ⟨res1, sA, opsA⟩
    cases res1 with
    | error e =>
      rw [collectionsLoad_error_unfold env s names e sA opsA hempty h1] at h
      simp at h
    | ok rs =>
      rw [collectionsLoad_ok_unfold env s names rs sA opsA hempty h1] at h
      simp only [Prod.mk.injEq, Except.ok.injEq] at h
      obtain ⟨hcond, hrs⟩ :=
        loadResourcesLoop_ok_cond (jsSort (jsSetDedup names)) env s rs sA opsA h1
      have hns_ne : jsSort (jsSetDedup names) ≠ [] := by
        intro hnil
        apply hempty
        have hperm := List.perm_insertionSort (fun a b => jsLe a b = true) (jsSetDedup names)
        rw [show (jsSetDedup names).insertionSort (fun a b => jsLe a b = true) =
          jsSort (jsSetDedup names) from rfl, hnil] at hperm
        exact hperm.symm.eq_nil
      obtain ⟨sA2, ops2, h2, hsync⟩ :=
        loadResourcesLoop_runs (jsSort (jsSetDedup names)) env s1 hcond
      refine ⟨(linkResourcesLoop (getCollectionKey (jsSort (jsSetDedup names))) sA2
          (List.filterMap env.resources (jsSort (jsSetDedup names)))).1,
        FsOp.makeDirectory (env.collectionsDirectory ++ "/" ++
            getCollectionKey (jsSort (jsSetDedup names))) ::
          (ops2 ++ (linkResourcesLoop (getCollectionKey (jsSort (jsSetDedup names))) sA2
            (List.filterMap env.resources (jsSort (jsSetDedup names)))).2), ?_, ?_, ?_⟩
      · rw [collectionsLoad_ok_unfold env s1 names _ sA2 ops2 hempty h2, ← h.1, hrs]
      · obtain ⟨n, hn⟩ := hsync.resolve_left hns_ne
        refine ⟨n, ?_⟩
        rcases hn with hn | hn
        · exact Or.inl (List.mem_cons_of_mem _ (List.mem_append_left _ hn))
        · exact Or.inr (List.mem_cons_of_mem _ (List.mem_append_left _ hn))
      · rcases hcons : jsSort (jsSetDedup names) with _ | ⟨n0, nsTail⟩
        · exact absurd hcons hns_ne
        · obtain ⟨hsome0, _⟩ := hcond n0 (by rw [hcons]; exact List.mem_cons_self n0 nsTail)
          cases hres0 : env.resources n0 with
          | none => rw [hres0] at hsome0; cases hsome0
          | some r0 =>
            refine ⟨getCollectionKey (jsSort (jsSetDedup names)), r0.name, ?_⟩
            rw [hcons]
            simp only [List.filterMap_cons, hres0]
            exact List.mem_cons_of_mem _ (List.mem_append_right _
              (linkResourcesLoop_head_symlink _ _ r0 _))

/-- A one-resource environment for exercising the loader: resource `"a"` is
configured, checks out to `/resources/a`, and always syncs cleanly. -/
def exampleServerEnv : ServerEnv :=
  ⟨"/collections", "NOTE",
    (fun n => if n == "a" then some ⟨"a", "", "", "/resources/a"⟩ else Option.none),
    fun _ => false⟩

/-- C3, counterexample: loading the same one-resource collection twice with
nothing changed is not free — the second call still performs a `git pull` for
the member and removes and re-creates its symlink, so it performs sync
operations rather than zero. -/
theorem collectionsLoad_cache_miss_counterexample :
    (collectionsLoad exampleServerEnv
        (collectionsLoad exampleServerEnv ⟨[], []⟩ ["a"]).2.1 ["a"]).2.2 =
      [FsOp.makeDirectory "/collections/a", FsOp.gitPull "a",
        FsOp.removeEntry "a" "a", FsOp.symlink "a" "a"] ∧
    (collectionsLoad exampleServerEnv
        (collectionsLoad exampleServerEnv ⟨[], []⟩ ["a"]).2.1 ["a"]).2.2 ≠ [] :=
  ⟨by decide, by decide⟩

/-- Witness for the amended C3 theorem at the concrete one-resource
environment. -/
theorem collectionsLoad_second_call_witness :
    ∃ s2 ops2,
      collectionsLoad exampleServerEnv ⟨["a"], [("a", "a")]⟩ ["a"] =
        (.ok ⟨"/collections/a",
            "## Collection\nYou are running inside the collection directory.\nOnly use relative paths within '.' and never use '..' or absolute paths.\nDo not leave the collection directory.\n\n## Resource: a\nNOTE\nPath: ./a"⟩,
          s2, ops2) ∧
      (∃ n, FsOp.gitPull n ∈ ops2 ∨ FsOp.gitClone n ∈ ops2) ∧
      (∃ k n, FsOp.symlink k n ∈ ops2) :=
  collectionsLoad_second_call_same_result_but_resyncs exampleServerEnv ⟨[], []⟩ ["a"]
    ⟨"/collections/a",
      "## Collection\nYou are running inside the collection directory.\nOnly use relative paths within '.' and never use '..' or absolute paths.\nDo not leave the collection directory.\n\n## Resource: a\nNOTE\nPath: ./a"⟩
    ⟨["a"], [("a", "a")]⟩
    [FsOp.makeDirectory "/collections/a", FsOp.gitClone "a", FsOp.symlink "a" "a"]
    rfl

end Btca



